import Mathlib

/-!
Verification of the Conway's Game of Life simulator (`src/main.rs`).

The live-cell set (`HashSet<Coord>` in the source) is embedded as a
`Finset Coord`; the neighbour-count `HashMap<Coord, usize>` is embedded as
its key set (`counts_keys`) together with its value function
(`neighbour_counts`).  Coordinates are `ℤ × ℤ`; the spec obliges callers to
stay away from the integer-width limits, so unbounded integers model the
`i32` arithmetic faithfully in that range, except for `mouse_to_grid`,
whose truncating `i32` division is modelled exactly by `Int.tdiv`.
-/

/-- `Coord`: an integer (x, y) pair identifying one grid cell
(struct `Coord { x: i32, y: i32 }` in the source). -/
abbrev Coord := ℤ × ℤ

/-- `DIFFS`: the 8 Moore-neighbourhood offsets, in source order. -/
def DIFFS : List (ℤ × ℤ) :=
  [(-1, -1), (-1, 0), (-1, 1),
   (0, -1),           (0, 1),
   (1, -1),  (1, 0),  (1, 1)]

/-- `CELL_SIZE`: on-screen pixel width/height of one cell. -/
def CELL_SIZE : ℤ := 10

/-- `FPS`: target render rate. -/
def FPS : ℕ := 144

/-- `STEPS_RATE`: target simulation steps per second. -/
def STEPS_RATE : ℕ := 12

/-- `STEP_FRAME = FPS / STEPS_RATE`: frames between generation steps. -/
def STEP_FRAME : ℕ := FPS / STEPS_RATE

/-- `neighbours`: the 8 Moore-neighbourhood coordinates of `cell`.  The
source writes them into a fixed `[Coord; 8]` buffer in `DIFFS` order; the
buffer is returned here as a length-8 list in the same order. -/
def neighbours (cell : Coord) : List Coord :=
  DIFFS.map (fun d => (cell.1 + d.1, cell.2 + d.2))

/-- Value function of the `HashMap<Coord, usize>` built by
`neighbour_counts` in the source: each live cell increments the entry of
each of its 8 neighbours, so the final value at `c` is the total number of
occurrences of `c` among the neighbour lists of the live cells. -/
def neighbour_counts (cells : Finset Coord) (c : Coord) : ℕ :=
  ∑ a ∈ cells, (neighbours a).count c

/-- Key set of the `HashMap<Coord, usize>` built by `neighbour_counts` in
the source: exactly the coordinates that received at least one increment,
i.e. the neighbours of live cells. -/
def counts_keys (cells : Finset Coord) : Finset Coord :=
  cells.biUnion (fun a => (neighbours a).toFinset)

/-- `mouse_to_grid`: converts the mouse position to grid coordinates by
truncating `i32` division (`Int.tdiv`) of the camera-translated position
by `CELL_SIZE`. -/
def mouse_to_grid (x y cam_x cam_y : ℤ) : Coord :=
  ((x + cam_x).tdiv CELL_SIZE, (y + cam_y).tdiv CELL_SIZE)

/-- `step`: the next generation.  The source iterates the `(cell, count)`
entries of the count map and keeps `cell` iff
`count == 3 || cells.contains(&cell) && count == 2`
(Rust `&&` binds tighter than `||`). -/
def step (cells : Finset Coord) : Finset Coord :=
  (counts_keys cells).filter
    (fun c => neighbour_counts cells c = 3 ∨ (c ∈ cells ∧ neighbour_counts cells c = 2))

/-- Specification-side count: the number of members of `cells` lying in
`c`'s 8-cell Moore neighbourhood (the "live-neighbor count" of the spec). -/
def liveNeighborCount (cells : Finset Coord) (c : Coord) : ℕ :=
  (cells.filter (fun a => a ∈ neighbours c)).card

/-! ### Basic facts about `neighbours` -/

lemma DIFFS_nodup : DIFFS.Nodup := by decide

lemma mem_neighbours {a c : Coord} :
    c ∈ neighbours a ↔
      (c.1 - a.1 = -1 ∨ c.1 - a.1 = 0 ∨ c.1 - a.1 = 1) ∧
      (c.2 - a.2 = -1 ∨ c.2 - a.2 = 0 ∨ c.2 - a.2 = 1) ∧ c ≠ a := by
  simp only [neighbours, DIFFS, List.map_cons, List.map_nil, List.mem_cons,
    List.not_mem_nil, or_false, Prod.ext_iff, ne_eq, not_and]
  omega

lemma neighbours_symm {a c : Coord} : c ∈ neighbours a ↔ a ∈ neighbours c := by
  rw [mem_neighbours, mem_neighbours]
  constructor <;> intro h <;>
    exact ⟨by omega, by omega, fun hc => h.2.2 (by simp [hc])⟩

lemma not_mem_neighbours_self (c : Coord) : c ∉ neighbours c := by
  rw [mem_neighbours]
  simp

lemma neighbours_nodup (c : Coord) : (neighbours c).Nodup := by
  refine List.Nodup.map ?_ DIFFS_nodup
  intro d e h
  rw [Prod.ext_iff] at h ⊢
  simp only [Prod.mk.injEq] at h
  omega

lemma neighbours_length (c : Coord) : (neighbours c).length = 8 := by
  simp [neighbours, DIFFS]

/-! ### The count map agrees with the spec's live-neighbour count -/

lemma count_nodup {l : List Coord} (h : l.Nodup) (c : Coord) :
    l.count c = if c ∈ l then 1 else 0 := by
  induction l with
  | nil => simp
  | cons a l ih =>
    rw [List.count_cons]
    obtain ⟨ha, hl⟩ := List.nodup_cons.mp h
    rw [ih hl]
    by_cases hc : a = c
    · subst hc
      simp [ha]
    · have hca : ¬(c = a) := fun h2 => hc h2.symm
      simp only [beq_iff_eq, if_neg hc, List.mem_cons]
      by_cases hm : c ∈ l <;> simp [hm, hca]

lemma count_neighbours (a c : Coord) :
    (neighbours a).count c = if c ∈ neighbours a then 1 else 0 :=
  count_nodup (neighbours_nodup a) c

lemma neighbour_counts_eq_live (cells : Finset Coord) (c : Coord) :
    neighbour_counts cells c = liveNeighborCount cells c := by
  unfold neighbour_counts liveNeighborCount
  rw [Finset.card_filter]
  refine Finset.sum_congr rfl (fun a _ => ?_)
  rw [count_neighbours]
  by_cases h : c ∈ neighbours a
  · rw [if_pos h, if_pos (neighbours_symm.mp h)]
  · rw [if_neg h, if_neg (fun h2 => h (neighbours_symm.mpr h2))]

lemma mem_counts_keys {cells : Finset Coord} {c : Coord} :
    c ∈ counts_keys cells ↔ 1 ≤ liveNeighborCount cells c := by
  unfold counts_keys liveNeighborCount
  rw [Nat.one_le_iff_ne_zero, ← Nat.pos_iff_ne_zero, Finset.card_pos,
    Finset.filter_nonempty_iff]
  simp only [Finset.mem_biUnion, List.mem_toFinset]
  exact exists_congr (fun a => and_congr_right (fun _ => neighbours_symm))

lemma mem_step_char {cells : Finset Coord} {c : Coord} :
    c ∈ step cells ↔
      liveNeighborCount cells c = 3 ∨
      (liveNeighborCount cells c = 2 ∧ c ∈ cells) := by
  unfold step
  rw [Finset.mem_filter, neighbour_counts_eq_live, mem_counts_keys]
  constructor
  · rintro ⟨_, h | ⟨hm, h⟩⟩
    · exact Or.inl h
    · exact Or.inr ⟨h, hm⟩
  · rintro (h | ⟨h, hm⟩)
    · exact ⟨by omega, Or.inl h⟩
    · exact ⟨by omega, Or.inr ⟨hm, h⟩⟩

/-! ### Translation equivariance of `step` -/

/-- Translate every live cell by the vector `v`. -/
def translateSet (v : Coord) (S : Finset Coord) : Finset Coord :=
  S.image (fun c => (c.1 + v.1, c.2 + v.2))

lemma translateSet_inj (v : Coord) :
    Function.Injective (fun c : Coord => (c.1 + v.1, c.2 + v.2)) := by
  intro a b h
  rw [Prod.ext_iff] at h ⊢
  simp only [Prod.mk.injEq] at h
  omega

lemma mem_translateSet {v : Coord} {S : Finset Coord} {c : Coord} :
    c ∈ translateSet v S ↔ (c.1 - v.1, c.2 - v.2) ∈ S := by
  unfold translateSet
  rw [Finset.mem_image]
  constructor
  · rintro ⟨a, ha, h⟩
    have : (c.1 - v.1, c.2 - v.2) = a := by
      rw [Prod.ext_iff] at h ⊢
      simp only [Prod.mk.injEq] at h ⊢
      omega
    rw [this]
    exact ha
  · intro h
    exact ⟨(c.1 - v.1, c.2 - v.2), h, by rw [Prod.ext_iff]; constructor <;> simp⟩

lemma live_translateSet (v : Coord) (S : Finset Coord) (c : Coord) :
    liveNeighborCount (translateSet v S) c =
      liveNeighborCount S (c.1 - v.1, c.2 - v.2) := by
  unfold liveNeighborCount translateSet
  rw [Finset.filter_image, Finset.card_image_of_injective _ (translateSet_inj v)]
  congr 1
  refine Finset.filter_congr (fun a _ => ?_)
  rw [mem_neighbours, mem_neighbours]
  simp only [Prod.ext_iff, Prod.mk.injEq, ne_eq, not_and, eq_iff_iff]
  omega

lemma step_translateSet (v : Coord) (S : Finset Coord) :
    step (translateSet v S) = translateSet v (step S) := by
  ext c
  rw [mem_translateSet, mem_step_char, mem_step_char, live_translateSet, mem_translateSet]

/-! ### Concrete patterns -/

/-- Horizontal 3-cell blinker. -/
def blinkerH : Finset Coord := {(0, 0), (1, 0), (2, 0)}

/-- Vertical 3-cell blinker. -/
def blinkerV : Finset Coord := {(0, 0), (0, 1), (0, 2)}

/-- 2×2 block with lower-left corner at `(x, y)`. -/
def block (x y : ℤ) : Finset Coord :=
  {(x, y), (x + 1, y), (x, y + 1), (x + 1, y + 1)}

lemma block_translateSet (x y : ℤ) : block x y = translateSet (x, y) (block 0 0) := by
  ext c
  rw [mem_translateSet]
  simp only [block, Finset.mem_insert, Finset.mem_singleton, Prod.ext_iff,
    Prod.mk.injEq]
  omega

lemma step_block00 : step (block 0 0) = block 0 0 := by decide

/-! ### Claim theorems C1–C6 -/

/-- C1: `step` implements the standard Game of Life rule: a coordinate is in
`step S` iff its live-neighbour count in `S` equals 3, or it equals 2 and the
coordinate is a member of `S` (birth at exactly 3 neighbours, survival at 2
or 3, death otherwise). -/
theorem step_implements_life_rule (S : Finset Coord) (c : Coord) :
    c ∈ step S ↔
      (liveNeighborCount S c = 3 ∨ (liveNeighborCount S c = 2 ∧ c ∈ S)) :=
  mem_step_char

/-- C2: the count map of `neighbour_counts` contains a coordinate as a key
iff it has at least one live neighbour (cells with zero live neighbours
never appear), and the stored value equals the exact number of members of
the live set in that coordinate's 8-cell Moore neighbourhood. -/
theorem neighbour_counts_spec (S : Finset Coord) (c : Coord) :
    (c ∈ counts_keys S ↔ 1 ≤ liveNeighborCount S c) ∧
      neighbour_counts S c = liveNeighborCount S c :=
  ⟨mem_counts_keys, neighbour_counts_eq_live S c⟩

/-- C3: `neighbours c` produces exactly the 8 Moore-neighbourhood
coordinates `(x+dx, y+dy)` for `dx, dy ∈ {-1,0,1}` excluding `(0,0)`; they
are pairwise distinct, none equals `c`, and the relation is symmetric. -/
theorem neighbours_moore_spec (c : Coord) :
    (neighbours c).length = 8 ∧ (neighbours c).Nodup ∧ c ∉ neighbours c ∧
      (∀ n : Coord, n ∈ neighbours c ↔
        ((n.1 - c.1 = -1 ∨ n.1 - c.1 = 0 ∨ n.1 - c.1 = 1) ∧
         (n.2 - c.2 = -1 ∨ n.2 - c.2 = 0 ∨ n.2 - c.2 = 1) ∧ n ≠ c)) ∧
      (∀ n : Coord, c ∈ neighbours n ↔ n ∈ neighbours c) :=
  ⟨neighbours_length c, neighbours_nodup c, not_mem_neighbours_self c,
    fun _ => mem_neighbours, fun _ => neighbours_symm⟩

/-- C4: the 3-cell blinker oscillates with period 2: for the horizontal
line `{(0,0), (1,0), (2,0)}` and its vertical counterpart, `step S ≠ S`
and `step (step S) = S`; one `step` of the horizontal line yields exactly
`{(1,-1), (1,0), (1,1)}`. -/
theorem blinker_period_two :
    step blinkerH = ({(1, -1), (1, 0), (1, 1)} : Finset Coord) ∧
      step blinkerH ≠ blinkerH ∧ step (step blinkerH) = blinkerH ∧
      step blinkerV ≠ blinkerV ∧ step (step blinkerV) = blinkerV := by
  refine ⟨by decide, by decide, by decide, by decide, by decide⟩

/-- C5: a 2×2 block of 4 mutually adjacent live cells is a fixed point of
`step`, at every position `(x, y)`. -/
theorem block_fixed_point (x y : ℤ) : step (block x y) = block x y := by
  rw [block_translateSet, step_translateSet, step_block00]

/-- C6: every configuration with fewer than 3 live cells dies in one step:
`step ∅ = ∅` (hence the empty lattice stays empty), and every set with
exactly 1 or exactly 2 live cells steps to `∅`. -/
theorem under_three_cells_die :
    (step (∅ : Finset Coord) = ∅ ∧ step (step (∅ : Finset Coord)) = ∅) ∧
      ∀ S : Finset Coord, S.card = 1 ∨ S.card = 2 → step S = ∅ := by
  refine ⟨⟨by decide, by decide⟩, fun S hS => ?_⟩
  ext c
  simp only [Finset.not_mem_empty, iff_false]
  intro hc
  rw [mem_step_char] at hc
  have hle : liveNeighborCount S c ≤ S.card := Finset.card_filter_le _ _
  rcases hc with h3 | ⟨h2, hm⟩
  · omega
  · have hsub : S.filter (fun a => a ∈ neighbours c) ⊆ S.erase c := by
      intro a ha
      rw [Finset.mem_filter] at ha
      rw [Finset.mem_erase]
      refine ⟨fun hac => ?_, ha.1⟩
      exact not_mem_neighbours_self c (hac ▸ ha.2)
    have := Finset.card_le_card hsub
    rw [Finset.card_erase_of_mem hm] at this
    unfold liveNeighborCount at h2
    omega

/-- Witness for C6 at the singleton `{(0, 0)}`. -/
theorem under_three_cells_die_witness :
    step ({((0 : ℤ), (0 : ℤ))} : Finset Coord) = ∅ :=
  under_three_cells_die.2 {((0 : ℤ), (0 : ℤ))} (Or.inl (by decide))

/-! ### Truncating division for `mouse_to_grid` -/

lemma tdiv_ten (a : ℤ) :
    a.tdiv 10 = if 0 ≤ a then ((a.natAbs / 10 : ℕ) : ℤ)
      else -((a.natAbs / 10 : ℕ) : ℤ) := by
  rcases a with n | n <;> simp [Int.tdiv]

/-- C7: `mouse_to_grid` integer-divides the camera-translated position by
`CELL_SIZE`, truncating toward zero (magnitude divided, sign kept): a sum of
`-1` maps to grid 0, and the map is consistent with camera translation away
from the zero boundary. -/
theorem mouse_to_grid_trunc_spec :
    (∀ x y cam_x cam_y : ℤ, mouse_to_grid x y cam_x cam_y =
        ((if 0 ≤ x + cam_x then (((x + cam_x).natAbs / CELL_SIZE.natAbs : ℕ) : ℤ)
          else -(((x + cam_x).natAbs / CELL_SIZE.natAbs : ℕ) : ℤ)),
         (if 0 ≤ y + cam_y then (((y + cam_y).natAbs / CELL_SIZE.natAbs : ℕ) : ℤ)
          else -(((y + cam_y).natAbs / CELL_SIZE.natAbs : ℕ) : ℤ)))) ∧
    (∀ x y cam_x cam_y : ℤ, x + cam_x = -1 →
        (mouse_to_grid x y cam_x cam_y).1 = 0) ∧
    (∀ x y cam_x cam_y : ℤ, (0 ≤ x + cam_x ∨ x + cam_x + CELL_SIZE ≤ 0) →
        mouse_to_grid (x + CELL_SIZE) y cam_x cam_y =
          ((mouse_to_grid x y cam_x cam_y).1 + 1,
           (mouse_to_grid x y cam_x cam_y).2)) := by
  refine ⟨fun x y cx cy => ?_, fun x y cx cy h => ?_, fun x y cx cy h => ?_⟩
  · unfold mouse_to_grid
    rw [Prod.ext_iff]
    constructor <;> simp only [CELL_SIZE, Int.natAbs_ofNat] <;> exact tdiv_ten _
  · unfold mouse_to_grid
    simp only [CELL_SIZE, h]
    decide
  · unfold mouse_to_grid
    rw [Prod.ext_iff]
    simp only [CELL_SIZE] at h ⊢
    constructor
    · show (x + CELL_SIZE + cx).tdiv CELL_SIZE = (x + cx).tdiv CELL_SIZE + 1
      simp only [CELL_SIZE]
      rw [show x + 10 + cx = (x + cx) + 10 by ring, tdiv_ten, tdiv_ten]
      split_ifs <;> omega
    · trivial

/-- Witness for C7: the `-1 ↦ 0` dead zone at `x = -3, cam_x = 2`, and
camera-translation consistency at `x = 35, cam_x = 4`. -/
theorem mouse_to_grid_trunc_spec_witness :
    (mouse_to_grid (-3) 5 2 0).1 = 0 ∧
      mouse_to_grid (35 + CELL_SIZE) 7 4 3 =
        ((mouse_to_grid 35 7 4 3).1 + 1, (mouse_to_grid 35 7 4 3).2) :=
  ⟨mouse_to_grid_trunc_spec.2.1 (-3) 5 2 0 (by decide),
   mouse_to_grid_trunc_spec.2.2 35 7 4 3 (Or.inl (by decide))⟩

/-! ### The per-frame update of the simulation loop

The `run` loop of the source owns the live-cell set, the camera offset, the
WASD held-flags, the run/pause flag `stepping` and the step counter
`frame_i`.  `frame` below embeds one iteration of the loop body (after
event polling): the held-flag values, the edge-triggered Space
(run/pause toggle) and Delete (clear) events, the sampled mouse state and
the buttons are the frame's input.  Rendering and sleeping do not touch
this state and are omitted. -/

structure FrameInput where
  w_down : Bool
  a_down : Bool
  s_down : Bool
  d_down : Bool
  toggle : Bool
  clearAll : Bool
  mouse_x : ℤ
  mouse_y : ℤ
  lmb : Bool
  rmb : Bool

structure LoopState where
  cells : Finset Coord
  frame_i : ℕ
  cam_x : ℤ
  cam_y : ℤ
  stepping : Bool

/-- Camera x-pan of one frame: A moves −15, D moves +15. -/
def panX (inp : FrameInput) : ℤ :=
  (if inp.a_down then -15 else 0) + (if inp.d_down then 15 else 0)

/-- Camera y-pan of one frame: W moves −15, S moves +15. -/
def panY (inp : FrameInput) : ℤ :=
  (if inp.w_down then -15 else 0) + (if inp.s_down then 15 else 0)

/-- The edit phase of one frame, in source order: the paint insertion
(left button) happens first, then the erase removal (right button); both
target the same pointer grid cell `g`. -/
def applyEdits (cells : Finset Coord) (g : Coord) (lmb rmb : Bool) :
    Finset Coord :=
  let painted := if lmb then insert g cells else cells
  if rmb then painted.erase g else painted

/-- One iteration of the source's frame loop: events (Space toggles
`stepping`, Delete clears), camera pan, paint/erase edits at the pointer's
grid cell, then — only when running — the generation step once the frame
counter has reached `STEP_FRAME` (reset to 0 and immediately incremented,
hence 1). -/
def frame (st : LoopState) (inp : FrameInput) : LoopState :=
  let stepping := if inp.toggle then !st.stepping else st.stepping
  let cells0 := if inp.clearAll then (∅ : Finset Coord) else st.cells
  let cam_x := st.cam_x + panX inp
  let cam_y := st.cam_y + panY inp
  let edited :=
    applyEdits cells0 (mouse_to_grid inp.mouse_x inp.mouse_y cam_x cam_y)
      inp.lmb inp.rmb
  if stepping then
    if STEP_FRAME ≤ st.frame_i then
      ⟨step edited, 1, cam_x, cam_y, stepping⟩
    else
      ⟨edited, st.frame_i + 1, cam_x, cam_y, stepping⟩
  else
    ⟨edited, st.frame_i, cam_x, cam_y, stepping⟩

/-- A frame with no key held, no event and no button pressed. -/
def idle : FrameInput := ⟨false, false, false, false, false, false, 0, 0, false, false⟩

/-- The loop state at entry of `run`'s loop, with live set `S`:
`frame_i = 0`, camera at the origin, running. -/
def initState (S : Finset Coord) : LoopState := ⟨S, 0, 0, 0, true⟩

lemma STEP_FRAME_eq : STEP_FRAME = 12 := by decide

lemma frame_idle_run (st : LoopState) (h : st.stepping = true) :
    frame st idle =
      if STEP_FRAME ≤ st.frame_i then
        (⟨step st.cells, 1, st.cam_x, st.cam_y, true⟩ : LoopState)
      else ⟨st.cells, st.frame_i + 1, st.cam_x, st.cam_y, true⟩ := by
  simp [frame, idle, applyEdits, panX, panY, h]

lemma runIdle_char (S : Finset Coord) (n : ℕ) :
    ((fun st => frame st idle)^[n] (initState S)).cells =
        step^[(n - 1) / STEP_FRAME] S ∧
      ((fun st => frame st idle)^[n] (initState S)).frame_i =
        (if n = 0 then 0 else (n - 1) % STEP_FRAME + 1) ∧
      ((fun st => frame st idle)^[n] (initState S)).stepping = true := by
  induction n with
  | zero => simp [initState]
  | succ n ih =>
    obtain ⟨hc, hf, hs⟩ := ih
    rw [Function.iterate_succ_apply', frame_idle_run _ hs]
    rw [STEP_FRAME_eq] at hf ⊢
    by_cases h0 : 12 ≤ ((fun st => frame st idle)^[n] (initState S)).frame_i
    · rw [if_pos h0]
      rw [hf] at h0
      have hn : n ≠ 0 := by
        intro h
        rw [h] at h0
        simp at h0
      rw [if_neg hn] at hf h0
      have h11 : (n - 1) % 12 = 11 := by omega
      refine ⟨?_, ?_, rfl⟩
      · show step (((fun st => frame st idle)^[n] (initState S)).cells) =
          step^[(n + 1 - 1) / 12] S
        rw [hc, STEP_FRAME_eq,
          show (n + 1 - 1) / 12 = (n - 1) / 12 + 1 by omega,
          Function.iterate_succ_apply']
      · show 1 = if n + 1 = 0 then 0 else (n + 1 - 1) % 12 + 1
        rw [if_neg (Nat.succ_ne_zero n)]
        omega
    · rw [if_neg h0]
      rw [hf] at h0
      refine ⟨?_, ?_, rfl⟩
      · show ((fun st => frame st idle)^[n] (initState S)).cells =
          step^[(n + 1 - 1) / 12] S
        rw [hc, STEP_FRAME_eq]
        congr 1
        by_cases hn : n = 0
        · rw [hn]
        · rw [if_neg hn] at h0
          omega
      · show ((fun st => frame st idle)^[n] (initState S)).frame_i + 1 =
          if n + 1 = 0 then 0 else (n + 1 - 1) % 12 + 1
        rw [if_neg (Nat.succ_ne_zero n), hf]
        by_cases hn : n = 0
        · rw [hn]
          simp
        · rw [if_neg hn]
          rw [if_neg hn] at h0
          omega

/-! ### Claim theorems C8–C10 -/

/-- C8: when paint (left button) and erase (right button) are both held
over the same pointer position, the edit phase applies the paint insertion
first and the erase removal second, so erase wins: the pointer's grid cell
is not in the resulting live-cell set. -/
theorem paint_then_erase_erase_wins (cells : Finset Coord) (g : Coord) :
    applyEdits cells g true true = (insert g cells).erase g ∧
      g ∉ applyEdits cells g true true := by
  constructor
  · simp [applyEdits]
  · simp [applyEdits]

/-- C9: `STEP_FRAME = FPS / STEPS_RATE = 12 ≥ 1`; while running, the
engine replaces the live-cell set once every `STEP_FRAME` rendered frames
(after `n` undisturbed frames from the initial state, `step` has been
applied `(n-1)/STEP_FRAME` times); while paused (and Space not pressed),
the live-cell set is never replaced by the engine — only clear and the
paint/erase edits touch it — while camera pan still takes effect and the
frame counter stays put. -/
theorem simulation_cadence_spec :
    (STEP_FRAME = FPS / STEPS_RATE ∧ STEP_FRAME = 12 ∧ 1 ≤ STEP_FRAME) ∧
    (∀ (S : Finset Coord) (n : ℕ),
      ((fun st => frame st idle)^[n] (initState S)).cells =
        step^[(n - 1) / STEP_FRAME] S) ∧
    (∀ (st : LoopState) (inp : FrameInput),
      st.stepping = false → inp.toggle = false →
      (frame st inp).cells =
        applyEdits (if inp.clearAll then ∅ else st.cells)
          (mouse_to_grid inp.mouse_x inp.mouse_y
            (st.cam_x + panX inp) (st.cam_y + panY inp))
          inp.lmb inp.rmb ∧
      (frame st inp).cam_x = st.cam_x + panX inp ∧
      (frame st inp).cam_y = st.cam_y + panY inp ∧
      (frame st inp).frame_i = st.frame_i ∧
      (frame st inp).stepping = false) := by
  refine ⟨⟨rfl, STEP_FRAME_eq, by decide⟩,
    fun S n => (runIdle_char S n).1, fun st inp h1 h2 => ?_⟩
  simp [frame, h1, h2]

/-- Witness state for the paused part of C9. -/
def pausedSt : LoopState := ⟨{((0 : ℤ), (0 : ℤ))}, 3, 0, 0, false⟩

/-- Witness input for the paused part of C9: D held, left button painting. -/
def paintIn : FrameInput := ⟨false, false, false, true, false, false, 25, 7, true, false⟩

/-- Witness for C9 at a concrete paused state with a paint edit. -/
theorem simulation_cadence_spec_witness :
    (frame pausedSt paintIn).cells =
        applyEdits (if paintIn.clearAll then ∅ else pausedSt.cells)
          (mouse_to_grid paintIn.mouse_x paintIn.mouse_y
            (pausedSt.cam_x + panX paintIn) (pausedSt.cam_y + panY paintIn))
          paintIn.lmb paintIn.rmb ∧
      (frame pausedSt paintIn).cam_x = pausedSt.cam_x + panX paintIn ∧
      (frame pausedSt paintIn).cam_y = pausedSt.cam_y + panY paintIn ∧
      (frame pausedSt paintIn).frame_i = pausedSt.frame_i ∧
      (frame pausedSt paintIn).stepping = false :=
  simulation_cadence_spec.2.2 pausedSt paintIn rfl rfl

/-- C10: locality of `step`: every cell alive in the next generation is a
Moore neighbour of a currently live cell, hence `step` of a finite set is
finite with `|step S| ≤ 8 |S|`, and a region with no live cell adjacent to
it stays dead after one step. -/
theorem step_locality :
    (∀ S : Finset Coord,
      step S ⊆ S.biUnion (fun a => (neighbours a).toFinset)) ∧
    (∀ S : Finset Coord, (step S).card ≤ 8 * S.card) ∧
    (∀ S R : Finset Coord, (∀ c ∈ R, ∀ a ∈ S, c ∉ neighbours a) →
      ∀ c ∈ R, c ∉ step S) := by
  have hsub : ∀ S : Finset Coord,
      step S ⊆ S.biUnion (fun a => (neighbours a).toFinset) :=
    fun S => Finset.filter_subset _ _
  refine ⟨hsub, fun S => ?_, fun S R h c hc hstep => ?_⟩
  · calc (step S).card
        ≤ (S.biUnion (fun a => (neighbours a).toFinset)).card :=
          Finset.card_le_card (hsub S)
      _ ≤ ∑ a ∈ S, (neighbours a).toFinset.card := Finset.card_biUnion_le
      _ ≤ ∑ _a ∈ S, 8 :=
          Finset.sum_le_sum (fun a _ =>
            le_trans (neighbours_length a ▸ List.toFinset_card_le _) le_rfl)
      _ = 8 * S.card := by rw [Finset.sum_const, smul_eq_mul, Nat.mul_comm]
  · have := hsub S hstep
    rw [Finset.mem_biUnion] at this
    obtain ⟨a, ha, hmem⟩ := this
    exact h c hc a ha (List.mem_toFinset.mp hmem)

/-- Witness for C10: the isolated cell `(5,5)` is not adjacent to the live
cell `(0,0)` and stays dead after one step. -/
theorem step_locality_witness :
    ((5 : ℤ), (5 : ℤ)) ∉ step ({((0 : ℤ), (0 : ℤ))} : Finset Coord) :=
  step_locality.2.2 {((0 : ℤ), (0 : ℤ))} {((5 : ℤ), (5 : ℤ))}
    (by decide) ((5 : ℤ), (5 : ℤ)) (by decide)
